import Mathlib

/-!
Shallow embedding of `src/src/window.rs` of the `simple` crate: the bitmap-font
extraction scanner (`Window::parse_image_font`), the frame/event state machine
(`Window::next_frame`, `Window::next_event`, `Window::quit`), frame pacing, and
text rendering (`Window::print`).

Machine integers are modelled as `Nat`/`Int`; the casts `i as i32` and
`(i - x) as u32` performed by the scanner are exact for buffers below
`i32::MAX` entries, the regime modelled here.  Pixel buffers are lists of
comparable scalar pixel values.  Panics (index out of bounds) are modelled by
an explicit result constructor.
-/

/-- Rectangle mirroring `shape::Rect` (an `sdl2::rect::Rect`): `x`, `y` are
`i32`, width and height are `u32`. -/
structure SRect where
  x : Int
  y : Int
  w : Nat
  h : Nat
  deriving DecidableEq, Repr

/-- Modelled from the spec: the normalized input events of `crate::event::Event`
(module `event` is not under `src/`).  The spec describes a tagged union over
KeyDown, KeyUp, MouseMove, MouseButtonDown/Up and Quit; unrecognized native
events normalize to `none` and are dropped. -/
inductive Event where
  | KeyDown (key : Nat)
  | KeyUp (key : Nat)
  | MouseMove (mx my : Int)
  | MouseButtonDown (button : Nat)
  | MouseButtonUp (button : Nat)
  | Quit
  deriving DecidableEq, Repr

/-- The `Font` struct of `window.rs`: a character-to-source-rectangle table and
the fixed glyph height.  The Rust `HashMap<char, Rect>` is modelled by an
association list ordered by insertion; `parse_image_font` only ever inserts
pairwise-distinct keys (the alphabet is duplicate-free once the up-front check
passes), so the association list is an exact model of the map and its `len`. -/
structure FontM where
  chars : List (Char × SRect)
  height : Nat
  deriving DecidableEq, Repr

/-- `Font::get_rect`: `HashMap::get` on the character table. -/
def fontLookup (f : FontM) (ch : Char) : Option SRect :=
  (f.chars.find? (fun p => decide (p.1 = ch))).map Prod.snd

/-- Modelled from the spec: `util::string_has_duplicate_chars` (module
`crate::util` is not under `src/`).  The spec requires the alphabet to
"contain no duplicate characters", the check failing exactly when some
character occurs more than once. -/
def string_has_duplicate_chars : List Char → Bool
  | [] => false
  | c :: rest => decide (c ∈ rest) || string_has_duplicate_chars rest

/-- The single-pass scan performed inside `surf.with_lock` by
`Window::parse_image_font` (window.rs lines 426-457): `b` is the border color
(`pixels[0]`), `i` the flat index of the enumerate loop, `chars` the table in
insertion order, `curr` the open rectangle.  A border pixel with an open
rectangle closes it with width `i - rect.x` and binds it to the alphabet
character at index `chars.len()`; if the alphabet is exhausted the closure
returns early with what was collected.  A non-border pixel with no open
rectangle opens one at `(i, 0)` with width 1 and the surface height. -/
def scanLoop (b : Nat) (alphabet : List Char) (ht : Nat) :
    List Nat → Nat → List (Char × SRect) → Option SRect → List (Char × SRect)
  | [], _, chars, _ => chars
  | p :: ps, i, chars, curr =>
    if p = b then
      match curr with
      | none => scanLoop b alphabet ht ps (i + 1) chars none
      | some rect =>
        match alphabet[chars.length]? with
        | none => chars
        | some c =>
          scanLoop b alphabet ht ps (i + 1)
            (chars ++ [(c, ⟨rect.x, rect.y, ((i : Int) - rect.x).toNat, rect.h⟩)]) none
    else
      match curr with
      | none => scanLoop b alphabet ht ps (i + 1) chars (some ⟨(i : Int), 0, 1, ht⟩)
      | some rect => scanLoop b alphabet ht ps (i + 1) chars (some rect)

/-- Result of `Window::parse_image_font`.  `err` is the `Err(String)` return;
`panicked` models a Rust panic (the out-of-bounds read `pixels[0]` on an empty
buffer), which is not a return value at all and in particular is distinct from
every `Ok` result.  Texture creation from the surface is an external
collaborator and is modelled as succeeding. -/
inductive ParseResult where
  | ok (font : FontM)
  | err (msg : String)
  | panicked (msg : String)
  deriving DecidableEq, Repr

/-- `Window::parse_image_font` (window.rs lines 414-473): reject duplicate
alphabets up front, read the border color from `pixels[0]` (a panic on an
empty buffer), run the scan over the whole flat buffer, and package the table
with the surface height. -/
def parse_image_font (pixels : List Nat) (alphabet : List Char) (ht : Nat) : ParseResult :=
  if string_has_duplicate_chars alphabet then
    ParseResult.err "image font string has duplicate characters"
  else
    match pixels with
    | [] => ParseResult.panicked "index out of bounds"
    | p :: ps => ParseResult.ok ⟨scanLoop p alphabet ht (p :: ps) 0 [] none, ht⟩

/-- Character table of a successful parse, `none` for an error or a panic. -/
def parseChars : ParseResult → Option (List (Char × SRect))
  | ParseResult.ok f => some f.chars
  | ParseResult.err _ => none
  | ParseResult.panicked _ => none

/-- The mutable state of `Window` that the frame/event machine touches:
`running`, the FIFO `event_queue`, the pacing clock fields, the foreground
color and the active font.  The SDL canvas, timer and event pump are external
collaborators. -/
structure Window where
  running : Bool
  event_queue : List Event
  ticks_at_previous_frame : Nat
  target_ticks_per_frame : Nat
  foreground_color : Nat × Nat × Nat × Nat
  font : Option FontM
  deriving DecidableEq, Repr

/-- `Window::quit` (window.rs lines 183-185). -/
def quit (w : Window) : Window :=
  { w with running := false }

/-- `Window::has_event`. -/
def has_event (w : Window) : Bool :=
  !w.event_queue.isEmpty

/-- `Window::next_event` (window.rs lines 153-155): `event_queue.remove(0)`,
which panics on an empty queue (modelled by `none`). -/
def next_event (w : Window) : Option (Event × Window) :=
  match w.event_queue with
  | [] => none
  | e :: rest => some (e, { w with event_queue := rest })

/-- Repeatedly call `next_event`, collecting the returned events in order. -/
def popSeq : Nat → Window → List Event
  | 0, _ => []
  | n + 1, w =>
    match next_event w with
    | none => []
    | some (e, w2) => e :: popSeq n w2

/-- Observable side effects of one `next_frame` call on the external
collaborators: the present call, each `timer.ticks()` read and each
`timer.delay(3)` of the pacing loop. -/
inductive FrameOp where
  | present
  | tickRead (v : Nat)
  | delayCall (ms : Nat)
  deriving DecidableEq, Repr

/-- The pacing loop of `next_frame` (window.rs lines 116-121):
`current_ticks = ticks(); while current_ticks - prev < target { delay(3);
current_ticks = ticks(); }`.  The timer is a stream of readings indexed by the
number of `ticks()` calls made so far in this frame; `fuel` bounds the number
of readings, `none` meaning the loop has not yet exited.  The `u32`
subtraction is `Nat` truncated subtraction, exact because the SDL tick counter
is monotone. -/
def pacingLoop (target prev : Nat) (ticks : Nat → Nat) : Nat → Nat → Option (Nat × List FrameOp)
  | 0, _ => none
  | fuel + 1, k =>
    let cur := ticks k
    if cur - prev < target then
      match pacingLoop target prev ticks fuel (k + 1) with
      | none => none
      | some (c, ops) => some (c, FrameOp.tickRead cur :: FrameOp.delayCall 3 :: ops)
    else
      some (cur, [FrameOp.tickRead cur])

/-- One step of the event-draining loop of `next_frame` (window.rs lines
124-136), applied to one normalized native event: `Some(Event::Quit)` calls
`self.quit()`, any other recognized event is pushed onto the queue, an
unrecognized event (`None`) is dropped. -/
def drainStep (w : Window) (oe : Option Event) : Window :=
  match oe with
  | some Event.Quit => quit w
  | some e => { w with event_queue := w.event_queue ++ [e] }
  | none => w

/-- The event-draining loop over the normalized native events available this
frame, in arrival order.  The normalization adapter
(`Event::from_sdl2_event`) is external, so a frame's input is modelled as the
list of its results. -/
def drainEvents (w : Window) (native : List (Option Event)) : Window :=
  native.foldl drainStep w

/-- The recognized non-Quit events of a drained frame, in arrival order:
exactly those that `next_frame` pushes onto the queue. -/
def normKeep : Option Event → Option Event
  | some Event.Quit => none
  | some e => some e
  | none => none

/-- Events appended to the queue by draining `native`, in arrival order. -/
def keptEvents (native : List (Option Event)) : List Event :=
  native.filterMap normKeep

/-- Result of one `next_frame` call: the new window state, the returned
boolean, and the trace of external side effects. -/
structure FrameResult where
  window : Window
  ret : Bool
  ops : List FrameOp
  deriving DecidableEq, Repr

/-- `Window::next_frame` (window.rs lines 109-139): return `false` immediately
when not running; otherwise present, run the pacing loop, record the new tick
value, drain all pending events, and return `true` unconditionally.  `none`
means the pacing loop ran out of fuel (the call has not completed). -/
def next_frame (w : Window) (ticks : Nat → Nat) (fuel : Nat)
    (native : List (Option Event)) : Option FrameResult :=
  if w.running then
    match pacingLoop w.target_ticks_per_frame w.ticks_at_previous_frame ticks fuel 0 with
    | none => none
    | some (cur, ops) =>
      some ⟨drainEvents { w with ticks_at_previous_frame := cur } native, true,
        FrameOp.present :: ops⟩
  else
    some ⟨w, false, []⟩

/-- A `canvas.copy` call issued by `print`: the glyph's source rectangle in
the font texture and the destination rectangle on the canvas. -/
structure DrawCall where
  src : SRect
  dst : SRect
  deriving DecidableEq, Repr

/-- The character loop of `Window::print` (window.rs lines 267-285): a missing
glyph advances the cursor by 5 and draws nothing; a present glyph is blitted
at the current cursor with its own width and height and advances the cursor by
its width.  Returns the final cursor and the draw calls in order. -/
def printLoop (f : FontM) (y : Int) : List Char → Int → Int × List DrawCall
  | [], cx => (cx, [])
  | ch :: rest, cx =>
    match fontLookup f ch with
    | none => printLoop f y rest (cx + 5)
    | some r =>
      let res := printLoop f y rest (cx + (r.w : Int))
      (res.1, ⟨r, ⟨cx, y, r.w, r.h⟩⟩ :: res.2)

/-- `Window::print` (window.rs lines 256-288): panics (`none`) when no font is
set; otherwise runs the character loop from `x` and returns the covering
rectangle `Rect::new(x, y, current_x - x, font.height)` together with the draw
calls made. -/
def print (w : Window) (text : List Char) (x y : Int) : Option (SRect × List DrawCall) :=
  match w.font with
  | none => none
  | some f =>
    let res := printLoop f y text x
    some (⟨x, y, (res.1 - x).toNat, f.height⟩, res.2)

/-- Cursor advance contributed by one character, as the spec states it: the
fixed gap for an unmapped character, the glyph's width otherwise. -/
def advanceOf (f : FontM) (ch : Char) : Int :=
  match fontLookup f ch with
  | none => 5
  | some r => (r.w : Int)

/-- Cursor position after printing `text` starting from `x`: the start plus
the sum of the per-character advances. -/
def cursorAt (f : FontM) (x : Int) (text : List Char) : Int :=
  x + (text.map (advanceOf f)).sum

/-- Draw calls of `print` as the spec describes them: the character at index
`n`, when it has a glyph, is drawn at the cumulative cursor position reached
after the first `n` characters, with the glyph's own width and height. -/
def glyphCallsFromSpec (f : FontM) (x y : Int) (text : List Char) : List DrawCall :=
  (List.range text.length).filterMap (fun n =>
    match text[n]? with
    | none => none
    | some ch =>
      match fontLookup f ch with
      | none => none
      | some r => some ⟨r, ⟨cursorAt f x (text.take n), y, r.w, r.h⟩⟩)

/-- A well-formed border-delimited band preceded by its border gap: `gb.1` is
a (possibly empty) run of border pixels, `gb.2` a nonempty run of non-border
pixels; the band is closed by the border pixel that `bandsJoin` appends. -/
def goodBlock (b : Nat) (gb : List Nat × List Nat) : Prop :=
  (∀ x ∈ gb.1, x = b) ∧ gb.2 ≠ [] ∧ ∀ x ∈ gb.2, x ≠ b

instance (b : Nat) (gb : List Nat × List Nat) : Decidable (goodBlock b gb) := by
  unfold goodBlock
  exact inferInstance

/-- Concatenation of border-delimited bands: each block contributes its gap,
its band, and the closing border pixel. -/
def bandsJoin (b : Nat) : List (List Nat × List Nat) → List Nat
  | [] => []
  | gb :: L => gb.1 ++ (gb.2 ++ (b :: bandsJoin b L))

/-- A small concrete font used to evaluate the theorems on concrete inputs:
glyph widths 5 and 7 for the characters a and b, height 7. -/
def sampleFont : FontM :=
  ⟨[('a', ⟨0, 0, 5, 7⟩), ('b', ⟨6, 0, 7, 7⟩)], 7⟩

/-- A freshly constructed running window with the sample font active. -/
def sampleWindow : Window :=
  ⟨true, [], 0, 16, (255, 255, 255, 255), some sampleFont⟩

/-- The sample window after `quit`. -/
def stoppedWindow : Window :=
  ⟨false, [], 0, 16, (255, 255, 255, 255), some sampleFont⟩

/-- Result of one frame on `sampleWindow` with a constant-20 timer and a Quit
event pending: the call drains the Quit yet returns `true`. -/
def sampleQuitRes : FrameResult :=
  ⟨⟨false, [], 20, 16, (255, 255, 255, 255), some sampleFont⟩, true,
    [FrameOp.present, FrameOp.tickRead 20]⟩

/-- First completed frame of the pacing example: tick 20 recorded. -/
def sampleFrame1 : FrameResult :=
  ⟨⟨true, [], 20, 16, (255, 255, 255, 255), some sampleFont⟩, true,
    [FrameOp.present, FrameOp.tickRead 20]⟩

/-- Second completed frame of the pacing example: tick 40 recorded. -/
def sampleFrame2 : FrameResult :=
  ⟨⟨true, [], 40, 16, (255, 255, 255, 255), some sampleFont⟩, true,
    [FrameOp.present, FrameOp.tickRead 40]⟩

/-!  Helper lemmas about the scanner. -/

lemma scanLoop_border_none {b : Nat} {A : List Char} {ht p : Nat} {ps : List Nat}
    {i : Nat} {chars : List (Char × SRect)} (hp : p = b) :
    scanLoop b A ht (p :: ps) i chars none = scanLoop b A ht ps (i + 1) chars none := by
  simp [scanLoop, hp]

lemma scanLoop_border_close {b : Nat} {A : List Char} {ht p : Nat} {ps : List Nat}
    {i : Nat} {chars : List (Char × SRect)} {rect : SRect} {c : Char}
    (hp : p = b) (hc : A[chars.length]? = some c) :
    scanLoop b A ht (p :: ps) i chars (some rect)
      = scanLoop b A ht ps (i + 1)
          (chars ++ [(c, ⟨rect.x, rect.y, ((i : Int) - rect.x).toNat, rect.h⟩)]) none := by
  simp [scanLoop, hp, hc]

lemma scanLoop_border_stop {b : Nat} {A : List Char} {ht p : Nat} {ps : List Nat}
    {i : Nat} {chars : List (Char × SRect)} {rect : SRect}
    (hp : p = b) (hc : A[chars.length]? = none) :
    scanLoop b A ht (p :: ps) i chars (some rect) = chars := by
  simp [scanLoop, hp, hc]

lemma scanLoop_nonborder_open {b : Nat} {A : List Char} {ht p : Nat} {ps : List Nat}
    {i : Nat} {chars : List (Char × SRect)} (hp : p ≠ b) :
    scanLoop b A ht (p :: ps) i chars none
      = scanLoop b A ht ps (i + 1) chars (some ⟨(i : Int), 0, 1, ht⟩) := by
  simp [scanLoop, hp]

lemma scanLoop_nonborder_skip {b : Nat} {A : List Char} {ht p : Nat} {ps : List Nat}
    {i : Nat} {chars : List (Char × SRect)} {rect : SRect} (hp : p ≠ b) :
    scanLoop b A ht (p :: ps) i chars (some rect)
      = scanLoop b A ht ps (i + 1) chars (some rect) := by
  simp [scanLoop, hp]

/-- A run of border pixels is skipped when no rectangle is open. -/
lemma scanLoop_skip_gap {b : Nat} {A : List Char} {ht : Nat} :
    ∀ (gap : List Nat), (∀ x ∈ gap, x = b) →
    ∀ (ps : List Nat) (i : Nat) (chars : List (Char × SRect)),
    scanLoop b A ht (gap ++ ps) i chars none
      = scanLoop b A ht ps (i + gap.length) chars none := by
  intro gap
  induction gap with
  | nil => intro _ ps i chars; simp
  | cons x gap ih =>
    intro hx ps i chars
    have hxb : x = b := hx x (by simp)
    rw [List.cons_append, scanLoop_border_none hxb,
      ih (fun z hz => hx z (by simp [hz])) ps (i + 1) chars]
    have : i + 1 + gap.length = i + (x :: gap).length := by simp; omega
    rw [this]

/-- A run of non-border pixels is skipped while a rectangle is open, leaving
the open rectangle unchanged. -/
lemma scanLoop_skip_open {b : Nat} {A : List Char} {ht : Nat} :
    ∀ (run : List Nat), (∀ x ∈ run, x ≠ b) →
    ∀ (ps : List Nat) (i : Nat) (chars : List (Char × SRect)) (rect : SRect),
    scanLoop b A ht (run ++ ps) i chars (some rect)
      = scanLoop b A ht ps (i + run.length) chars (some rect) := by
  intro run
  induction run with
  | nil => intro _ ps i chars rect; simp
  | cons x run ih =>
    intro hx ps i chars rect
    have hxb : x ≠ b := hx x (by simp)
    rw [List.cons_append, scanLoop_nonborder_skip hxb,
      ih (fun z hz => hx z (by simp [hz])) ps (i + 1) chars rect]
    have : i + 1 + run.length = i + (x :: run).length := by simp; omega
    rw [this]

/-- A nonempty run of non-border pixels reached with no open rectangle opens
one at its first index and leaves it open through the run. -/
lemma scanLoop_open_run {b : Nat} {A : List Char} {ht : Nat} :
    ∀ (run : List Nat), run ≠ [] → (∀ x ∈ run, x ≠ b) →
    ∀ (ps : List Nat) (i : Nat) (chars : List (Char × SRect)),
    scanLoop b A ht (run ++ ps) i chars none
      = scanLoop b A ht ps (i + run.length) chars (some ⟨(i : Int), 0, 1, ht⟩) := by
  intro run hne hx ps i chars
  match run, hne with
  | x :: rest, _ =>
    have hxb : x ≠ b := hx x (by simp)
    rw [List.cons_append, scanLoop_nonborder_open hxb,
      scanLoop_skip_open rest (fun z hz => hx z (by simp [hz])) ps (i + 1) chars _]
    have : i + 1 + rest.length = i + (x :: rest).length := by simp; omega
    rw [this]

/-- A buffer consisting of a border run followed by a non-border run (a
trailing unterminated rectangle) adds no character. -/
lemma scanLoop_tail {b : Nat} {A : List Char} {ht : Nat}
    (g r : List Nat) (hg : ∀ x ∈ g, x = b) (hr : ∀ x ∈ r, x ≠ b)
    (i : Nat) (chars : List (Char × SRect)) :
    scanLoop b A ht (g ++ r) i chars none = chars := by
  rw [scanLoop_skip_gap g hg r i chars]
  match r with
  | [] => rfl
  | x :: rest =>
    rw [show x :: rest = (x :: rest) ++ [] by simp,
      scanLoop_open_run (x :: rest) (by simp) hr [] (i + g.length) chars]
    rfl

/-- With an empty alphabet the scanner never inserts anything. -/
lemma scanLoop_alphabet_nil {b ht : Nat} :
    ∀ (ps : List Nat) (i : Nat) (curr : Option SRect),
    scanLoop b [] ht ps i [] curr = [] := by
  intro ps
  induction ps with
  | nil => intro i curr; cases curr <;> rfl
  | cons p rest ih =>
    intro i curr
    by_cases hp : p = b
    · cases curr with
      | none => rw [scanLoop_border_none hp]; exact ih (i + 1) none
      | some rect => exact scanLoop_border_stop hp (by simp)
    · cases curr with
      | none => rw [scanLoop_nonborder_open hp]; exact ih (i + 1) _
      | some rect => rw [scanLoop_nonborder_skip hp]; exact ih (i + 1) _

/-- Scanning a sequence of well-formed border-delimited bands followed by a
border run and a (possibly empty) trailing unterminated run binds each closed
band, in order, to the next unassigned alphabet character, as long as the
alphabet is large enough. -/
lemma scanLoop_bands_keys {b ht : Nat} {A : List Char} (g r : List Nat)
    (hg : ∀ x ∈ g, x = b) (hr : ∀ x ∈ r, x ≠ b) :
    ∀ (L : List (List Nat × List Nat)) (i : Nat) (chars : List (Char × SRect)),
    (∀ gb ∈ L, goodBlock b gb) →
    chars.length + L.length ≤ A.length →
    (scanLoop b A ht (bandsJoin b L ++ (g ++ r)) i chars none).map Prod.fst
      = chars.map Prod.fst ++ (A.drop chars.length).take L.length := by
  intro L
  induction L with
  | nil =>
    intro i chars _ _
    simp [bandsJoin, scanLoop_tail g r hg hr]
  | cons gb L ih =>
    intro i chars hgood hlen
    obtain ⟨h1, h2, h3⟩ := hgood gb (by simp)
    have hklt : chars.length < A.length := by
      simp [List.length_cons] at hlen; omega
    have hshape : bandsJoin b (gb :: L) ++ (g ++ r)
        = gb.1 ++ (gb.2 ++ (b :: (bandsJoin b L ++ (g ++ r)))) := by
      simp [bandsJoin, List.append_assoc]
    rw [hshape, scanLoop_skip_gap gb.1 h1, scanLoop_open_run gb.2 h2 h3]
    have hc : A[chars.length]? = some A[chars.length] := List.getElem?_eq_getElem hklt
    rw [scanLoop_border_close rfl hc]
    rw [ih _ _ (fun z hz => hgood z (by simp [hz])) (by simp [List.length_cons] at hlen ⊢; omega)]
    have hdt : (A.drop chars.length).take (L.length + 1)
        = A[chars.length] :: (A.drop (chars.length + 1)).take L.length := by
      rw [List.drop_eq_getElem_cons hklt, List.take_succ_cons]
    simp only [List.length_cons, List.length_append, List.length_singleton, List.map_append,
      List.map_cons, List.map_nil, hdt]
    simp [List.append_assoc]

/-- Scanning one more well-formed band than the alphabet can absorb stops the
scan at the closing border of the extra band: every alphabet character has
been bound and nothing past that pixel is examined (the remainder `rest` is
arbitrary). -/
lemma scanLoop_bands_exhaust {b ht : Nat} {A : List Char} (g run rest : List Nat)
    (hg : ∀ x ∈ g, x = b) (hrun : run ≠ []) (hrunb : ∀ x ∈ run, x ≠ b) :
    ∀ (L : List (List Nat × List Nat)) (i : Nat) (chars : List (Char × SRect)),
    (∀ gb ∈ L, goodBlock b gb) →
    chars.length + L.length = A.length →
    (scanLoop b A ht (bandsJoin b L ++ (g ++ (run ++ b :: rest))) i chars none).map Prod.fst
      = chars.map Prod.fst ++ A.drop chars.length := by
  intro L
  induction L with
  | nil =>
    intro i chars _ hlen
    simp only [List.length_nil, Nat.add_zero] at hlen
    rw [bandsJoin, List.nil_append, scanLoop_skip_gap g hg, scanLoop_open_run run hrun hrunb]
    have hc : A[chars.length]? = none := List.getElem?_eq_none (by omega)
    rw [scanLoop_border_stop rfl hc]
    have hdrop : A.drop chars.length = [] := List.drop_of_length_le (by omega)
    simp [hdrop]
  | cons gb L ih =>
    intro i chars hgood hlen
    obtain ⟨h1, h2, h3⟩ := hgood gb (by simp)
    have hklt : chars.length < A.length := by
      simp [List.length_cons] at hlen; omega
    have hshape : bandsJoin b (gb :: L) ++ (g ++ (run ++ b :: rest))
        = gb.1 ++ (gb.2 ++ (b :: (bandsJoin b L ++ (g ++ (run ++ b :: rest))))) := by
      simp [bandsJoin, List.append_assoc]
    rw [hshape, scanLoop_skip_gap gb.1 h1, scanLoop_open_run gb.2 h2 h3]
    have hc : A[chars.length]? = some A[chars.length] := List.getElem?_eq_getElem hklt
    rw [scanLoop_border_close rfl hc]
    rw [ih _ _ (fun z hz => hgood z (by simp [hz])) (by simp [List.length_cons] at hlen ⊢; omega)]
    rw [List.drop_eq_getElem_cons hklt]
    simp [List.map_append]

/-!  Helper lemmas about the duplicate check, the queue, draining, pacing and
printing. -/

lemma string_has_duplicate_chars_iff (A : List Char) :
    string_has_duplicate_chars A = true ↔ ¬ A.Nodup := by
  induction A with
  | nil => simp [string_has_duplicate_chars]
  | cons c rest ih =>
    simp [string_has_duplicate_chars, List.nodup_cons, ih]
    tauto

lemma string_has_duplicate_chars_eq_false {A : List Char} (h : A.Nodup) :
    string_has_duplicate_chars A = false := by
  by_contra hc
  exact (string_has_duplicate_chars_iff A).mp (by simpa using hc) h

lemma drainStep_running_false {w : Window} (oe : Option Event) (h : w.running = false) :
    (drainStep w oe).running = false := by
  cases oe with
  | none => exact h
  | some e => cases e <;> simp [drainStep, quit] <;> exact h

lemma drainEvents_running_false :
    ∀ (native : List (Option Event)) (w : Window), w.running = false →
    (drainEvents w native).running = false := by
  intro native
  induction native with
  | nil => intro w h; exact h
  | cons oe rest ih =>
    intro w h
    exact ih (drainStep w oe) (drainStep_running_false oe h)

lemma drainEvents_quit :
    ∀ (native : List (Option Event)) (w : Window), some Event.Quit ∈ native →
    (drainEvents w native).running = false := by
  intro native
  induction native with
  | nil => intro w h; simp at h
  | cons oe rest ih =>
    intro w h
    rcases List.mem_cons.mp h with heq | hmem
    · subst heq
      by_cases hrest : some Event.Quit ∈ rest
      · exact ih _ hrest
      · exact drainEvents_running_false rest _ (by simp [drainStep, quit])
    · exact ih _ hmem

lemma drainStep_ticks (w : Window) (oe : Option Event) :
    (drainStep w oe).ticks_at_previous_frame = w.ticks_at_previous_frame := by
  cases oe with
  | none => rfl
  | some e => cases e <;> rfl

lemma drainStep_target (w : Window) (oe : Option Event) :
    (drainStep w oe).target_ticks_per_frame = w.target_ticks_per_frame := by
  cases oe with
  | none => rfl
  | some e => cases e <;> rfl

lemma drainEvents_ticks :
    ∀ (native : List (Option Event)) (w : Window),
    (drainEvents w native).ticks_at_previous_frame = w.ticks_at_previous_frame := by
  intro native
  induction native with
  | nil => intro w; rfl
  | cons oe rest ih =>
    intro w
    calc (drainEvents (drainStep w oe) rest).ticks_at_previous_frame
        = (drainStep w oe).ticks_at_previous_frame := ih _
      _ = w.ticks_at_previous_frame := drainStep_ticks w oe

lemma drainEvents_target :
    ∀ (native : List (Option Event)) (w : Window),
    (drainEvents w native).target_ticks_per_frame = w.target_ticks_per_frame := by
  intro native
  induction native with
  | nil => intro w; rfl
  | cons oe rest ih =>
    intro w
    calc (drainEvents (drainStep w oe) rest).target_ticks_per_frame
        = (drainStep w oe).target_ticks_per_frame := ih _
      _ = w.target_ticks_per_frame := drainStep_target w oe

lemma drainStep_queue (w : Window) (oe : Option Event) :
    (drainStep w oe).event_queue
      = w.event_queue ++ (normKeep oe).toList := by
  cases oe with
  | none => simp [drainStep, normKeep]
  | some e => cases e <;> simp [drainStep, normKeep, quit]

lemma drainEvents_queue :
    ∀ (native : List (Option Event)) (w : Window),
    (drainEvents w native).event_queue = w.event_queue ++ keptEvents native := by
  intro native
  induction native with
  | nil => intro w; simp [drainEvents, keptEvents]
  | cons oe rest ih =>
    intro w
    have h1 : drainEvents w (oe :: rest) = drainEvents (drainStep w oe) rest := rfl
    rw [h1, ih, drainStep_queue]
    cases hoe : normKeep oe with
    | none => simp [keptEvents, List.filterMap_cons, hoe]
    | some e => simp [keptEvents, List.filterMap_cons, hoe]

lemma popSeq_queue :
    ∀ (q : List Event) (w : Window), w.event_queue = q → popSeq q.length w = q := by
  intro q
  induction q with
  | nil => intro w _; rfl
  | cons e rest ih =>
    intro w hw
    have h1 : next_event w = some (e, { w with event_queue := rest }) := by
      simp [next_event, hw]
    simp only [List.length_cons, popSeq, h1]
    rw [ih { w with event_queue := rest } rfl]

lemma pacingLoop_exit {target prev : Nat} {ticks : Nat → Nat} :
    ∀ (fuel k cur : Nat) (ops : List FrameOp),
    pacingLoop target prev ticks fuel k = some (cur, ops) → target ≤ cur - prev := by
  intro fuel
  induction fuel with
  | zero => intro k cur ops h; simp [pacingLoop] at h
  | succ fuel ih =>
    intro k cur ops h
    simp only [pacingLoop] at h
    by_cases hlt : ticks k - prev < target
    · simp only [hlt, if_true] at h
      cases hrec : pacingLoop target prev ticks fuel (k + 1) with
      | none => rw [hrec] at h; simp at h
      | some p =>
        rw [hrec] at h
        simp at h
        obtain ⟨hcur, _⟩ := h
        exact hcur ▸ ih (k + 1) p.1 p.2 (by rw [hrec])
    · simp only [hlt, if_false] at h
      simp at h
      omega

lemma cursorAt_cons (f : FontM) (x : Int) (ch : Char) (rest : List Char) :
    cursorAt f x (ch :: rest) = cursorAt f (x + advanceOf f ch) rest := by
  simp [cursorAt, List.map_cons, List.sum_cons]
  ring

lemma glyphCallsFromSpec_cons_none (f : FontM) (x y : Int) (ch : Char) (rest : List Char)
    (h : fontLookup f ch = none) :
    glyphCallsFromSpec f x y (ch :: rest) = glyphCallsFromSpec f (x + 5) y rest := by
  unfold glyphCallsFromSpec
  rw [List.length_cons, List.range_succ_eq_map, List.filterMap_cons, List.filterMap_map]
  simp only [List.getElem?_cons_zero, h]
  congr 1
  funext n
  simp only [Function.comp_apply, Nat.succ_eq_add_one, List.getElem?_cons_succ,
    List.take_succ_cons]
  cases hn : rest[n]? with
  | none => rfl
  | some c =>
    have hcur : cursorAt f x (ch :: rest.take n) = cursorAt f (x + 5) (rest.take n) := by
      rw [cursorAt_cons]
      simp [advanceOf, h]
    cases hc : fontLookup f c with
    | none => simp [hc]
    | some rc => simp [hc, hcur]

lemma glyphCallsFromSpec_cons_some (f : FontM) (x y : Int) (ch : Char) (rest : List Char)
    (r : SRect) (h : fontLookup f ch = some r) :
    glyphCallsFromSpec f x y (ch :: rest)
      = ⟨r, ⟨x, y, r.w, r.h⟩⟩ :: glyphCallsFromSpec f (x + (r.w : Int)) y rest := by
  unfold glyphCallsFromSpec
  rw [List.length_cons, List.range_succ_eq_map, List.filterMap_cons, List.filterMap_map]
  simp only [List.getElem?_cons_zero, h, List.take_zero]
  have hcur0 : cursorAt f x ([] : List Char) = x := by simp [cursorAt]
  rw [hcur0]
  refine congrArg (List.cons (⟨r, ⟨x, y, r.w, r.h⟩⟩ : DrawCall)) ?_
  congr 1
  funext n
  simp only [Function.comp_apply, Nat.succ_eq_add_one, List.getElem?_cons_succ,
    List.take_succ_cons]
  cases hn : rest[n]? with
  | none => rfl
  | some c =>
    have hcur : cursorAt f x (ch :: rest.take n) = cursorAt f (x + (r.w : Int)) (rest.take n) := by
      rw [cursorAt_cons]
      simp [advanceOf, h]
    cases hc : fontLookup f c with
    | none => simp [hc]
    | some rc => simp [hc, hcur]

/-- The character loop of `print` computes exactly the spec-side description:
the final cursor is the start plus the sum of per-character advances, and the
draw calls are the glyph blits at cumulative cursor positions. -/
lemma printLoop_eq (f : FontM) (y : Int) :
    ∀ (text : List Char) (x : Int),
    printLoop f y text x = (cursorAt f x text, glyphCallsFromSpec f x y text) := by
  intro text
  induction text with
  | nil => intro x; simp [printLoop, cursorAt, glyphCallsFromSpec]
  | cons ch rest ih =>
    intro x
    cases hc : fontLookup f ch with
    | none =>
      rw [show printLoop f y (ch :: rest) x = printLoop f y rest (x + 5) by
        simp [printLoop, hc]]
      rw [ih (x + 5), cursorAt_cons, glyphCallsFromSpec_cons_none f x y ch rest hc]
      simp [advanceOf, hc]
    | some r =>
      have h1 : printLoop f y (ch :: rest) x
          = ((printLoop f y rest (x + (r.w : Int))).1,
             ⟨r, ⟨x, y, r.w, r.h⟩⟩ :: (printLoop f y rest (x + (r.w : Int))).2) := by
        simp [printLoop, hc]
      rw [h1, ih (x + (r.w : Int)), cursorAt_cons, glyphCallsFromSpec_cons_some f x y ch rest r hc]
      simp [advanceOf, hc]

/-- A completed `next_frame` call on a running window exited its pacing loop:
the recorded tick value is the loop's exit reading and the pacing target is
unchanged. -/
lemma next_frame_run_fields {w : Window} {ticks : Nat → Nat} {fuel : Nat}
    {native : List (Option Event)} {res : FrameResult}
    (hw : w.running = true) (h : next_frame w ticks fuel native = some res) :
    ∃ cur ops,
      pacingLoop w.target_ticks_per_frame w.ticks_at_previous_frame ticks fuel 0 = some (cur, ops)
      ∧ res.window.ticks_at_previous_frame = cur
      ∧ res.window.target_ticks_per_frame = w.target_ticks_per_frame := by
  simp only [next_frame, hw, if_true] at h
  cases hp : pacingLoop w.target_ticks_per_frame w.ticks_at_previous_frame ticks fuel 0 with
  | none => rw [hp] at h; simp at h
  | some p =>
    obtain ⟨cur, ops⟩ := p
    rw [hp] at h
    simp only [Option.some.injEq] at h
    subst h
    refine ⟨cur, ops, rfl, ?_, ?_⟩
    · rw [drainEvents_ticks]
    · rw [drainEvents_target]

/-!  Claim theorems. -/

/-- C1 counterexample: on a running window with a Quit event pending, the
`next_frame` call that drains the Quit still returns `true` (the claim says it
returns `false`); only `running` is cleared, so the *next* call returns
`false`.  This matches the code's own documentation of `quit`: "It just means
that next_frame will return false on the next call." -/
theorem next_frame_quit_same_call_cex :
    next_frame sampleWindow (fun _ => 20) 1 [some Event.Quit] = some sampleQuitRes
    ∧ sampleQuitRes.ret = true
    ∧ sampleQuitRes.window.running = false := by
  refine ⟨rfl, rfl, rfl⟩

/-- C1 (amended): for every completed `next_frame` call the returned boolean
equals the `running` flag at *entry* — so the call that drains a Quit still
returns `true`; draining a Quit-normalized event clears `running`, and a call
made while stopped returns `false` and leaves the state unchanged, hence every
call after the Quit-draining one returns `false`, forever. -/
theorem next_frame_return_eq_entry_running (w : Window) (ticks : Nat → Nat) (fuel : Nat)
    (native : List (Option Event)) (res : FrameResult)
    (h : next_frame w ticks fuel native = some res) :
    res.ret = w.running
    ∧ (w.running = false → res.window = w)
    ∧ (some Event.Quit ∈ native → res.window.running = false) := by
  cases hr : w.running with
  | true =>
    simp only [next_frame, hr, if_true] at h
    cases hp : pacingLoop w.target_ticks_per_frame w.ticks_at_previous_frame ticks fuel 0 with
    | none => rw [hp] at h; simp at h
    | some p =>
      rw [hp] at h
      simp only [Option.some.injEq] at h
      subst h
      refine ⟨rfl, ?_, ?_⟩
      · intro hf
        exact absurd hf (by simp)
      · intro hq
        exact drainEvents_quit native _ hq
  | false =>
    simp only [next_frame, hr, Bool.false_eq_true, if_false] at h
    simp only [Option.some.injEq] at h
    subst h
    exact ⟨rfl, fun _ => rfl, fun _ => hr⟩

theorem next_frame_return_eq_entry_running_witness :
    next_frame sampleWindow (fun _ => 20) 1 [some Event.Quit] = some sampleQuitRes
    ∧ (sampleQuitRes.ret = sampleWindow.running
       ∧ (sampleWindow.running = false → sampleQuitRes.window = sampleWindow)
       ∧ (some Event.Quit ∈ [some Event.Quit] → sampleQuitRes.window.running = false)) :=
  ⟨rfl, next_frame_return_eq_entry_running sampleWindow (fun _ => 20) 1
    [some Event.Quit] sampleQuitRes rfl⟩

/-- C9: a `next_frame` call on a stopped session returns `false` with an empty
side-effect trace (no present, no tick read, no delay, no draining — fuel 0
suffices) and leaves every field of the window unchanged. -/
theorem next_frame_stopped_noop (w : Window) (ticks : Nat → Nat) (fuel : Nat)
    (native : List (Option Event)) (h : w.running = false) :
    next_frame w ticks fuel native = some ⟨w, false, []⟩ := by
  simp [next_frame, h]

theorem next_frame_stopped_noop_witness :
    stoppedWindow.running = false
    ∧ next_frame stoppedWindow (fun k => k) 0 [some (Event.KeyDown 1)]
        = some ⟨stoppedWindow, false, []⟩ :=
  ⟨rfl, next_frame_stopped_noop stoppedWindow (fun k => k) 0 [some (Event.KeyDown 1)] rfl⟩

/-- C8: two consecutive completed running `next_frame` calls record tick
values at their pacing waits that differ by at least `target_ticks_per_frame`:
the pacing loop of the second call exits only once `current - previous ≥
target`, and the recorded values are exactly those loop exits. -/
theorem next_frame_pacing_lower_bound (w : Window) (t1 : Nat → Nat) (f1 : Nat)
    (e1 : List (Option Event)) (t2 : Nat → Nat) (f2 : Nat) (e2 : List (Option Event))
    (r1 r2 : FrameResult)
    (hw : w.running = true)
    (h1 : next_frame w t1 f1 e1 = some r1)
    (hr : r1.window.running = true)
    (h2 : next_frame r1.window t2 f2 e2 = some r2)
    (htgt : 0 < w.target_ticks_per_frame) :
    r1.window.ticks_at_previous_frame + w.target_ticks_per_frame
      ≤ r2.window.ticks_at_previous_frame := by
  obtain ⟨cur1, ops1, hp1, htick1, htar1⟩ := next_frame_run_fields hw h1
  obtain ⟨cur2, ops2, hp2, htick2, htar2⟩ := next_frame_run_fields hr h2
  have hexit := pacingLoop_exit f2 0 cur2 ops2 hp2
  rw [htar1, htick1] at hexit
  rw [htick2, htick1]
  omega

theorem next_frame_pacing_lower_bound_witness :
    sampleWindow.running = true
    ∧ next_frame sampleWindow (fun _ => 20) 1 [] = some sampleFrame1
    ∧ sampleFrame1.window.running = true
    ∧ next_frame sampleFrame1.window (fun _ => 40) 1 [] = some sampleFrame2
    ∧ 0 < sampleWindow.target_ticks_per_frame
    ∧ sampleFrame1.window.ticks_at_previous_frame + sampleWindow.target_ticks_per_frame
        ≤ sampleFrame2.window.ticks_at_previous_frame :=
  ⟨rfl, rfl, rfl, rfl, by decide,
    next_frame_pacing_lower_bound sampleWindow (fun _ => 20) 1 [] (fun _ => 40) 1 []
      sampleFrame1 sampleFrame2 rfl rfl rfl rfl (by decide)⟩

/-- C6: the event queue is FIFO.  Draining appends the recognized non-Quit
events in arrival order behind whatever the queue already held, and repeated
`next_event` calls return the whole queue front to back: any event pushed
before another is popped before it.  In particular pushing `[A, B, C]` and
popping three times yields `A, B, C`. -/
theorem event_queue_fifo (w : Window) (native : List (Option Event)) :
    popSeq (w.event_queue.length + (keptEvents native).length) (drainEvents w native)
      = w.event_queue ++ keptEvents native := by
  have hq := drainEvents_queue native w
  have hlen : w.event_queue.length + (keptEvents native).length
      = (w.event_queue ++ keptEvents native).length := by simp
  rw [hlen]
  exact popSeq_queue (w.event_queue ++ keptEvents native) (drainEvents w native) hq

/-- C7: `print` with an active font draws each mapped character at the
cumulative cursor position (characters without a glyph advance the cursor by
the fixed gap and produce no draw call; characters with a glyph are drawn at
the current cursor x and advance it by the glyph's width), and returns the
rectangle spanning from the starting x to the final cursor x with the font's
height. -/
theorem print_semantics (w : Window) (f : FontM) (text : List Char) (x y : Int)
    (hf : w.font = some f) :
    print w text x y
      = some (⟨x, y, (cursorAt f x text - x).toNat, f.height⟩,
          glyphCallsFromSpec f x y text) := by
  simp only [print, hf]
  rw [printLoop_eq f y text x]

theorem print_semantics_witness :
    sampleWindow.font = some sampleFont
    ∧ print sampleWindow ['a', ' ', 'b'] 10 20
        = some (⟨10, 20, (cursorAt sampleFont 10 ['a', ' ', 'b'] - 10).toNat, sampleFont.height⟩,
            glyphCallsFromSpec sampleFont 10 20 ['a', ' ', 'b'])
    ∧ print sampleWindow ['a', ' ', 'b'] 10 20
        = some (⟨10, 20, 17, 7⟩,
            [⟨⟨0, 0, 5, 7⟩, ⟨10, 20, 5, 7⟩⟩, ⟨⟨6, 0, 7, 7⟩, ⟨20, 20, 7, 7⟩⟩]) :=
  ⟨rfl, print_semantics sampleWindow sampleFont ['a', ' ', 'b'] 10 20 rfl, by decide⟩

/-- C10: the spec's "fixed small gap" for a character with no glyph is the
constant 5: inside the character loop an unmapped character advances the
cursor by exactly 5 and contributes no draw call, and printing just that
character returns a width-5 covering rectangle and an empty draw list. -/
theorem print_unmapped_gap_five (w : Window) (f : FontM) (ch : Char) (text : List Char)
    (x y cx : Int) (hf : w.font = some f) (hch : fontLookup f ch = none) :
    printLoop f y (ch :: text) cx = printLoop f y text (cx + 5)
    ∧ print w [ch] x y = some (⟨x, y, 5, f.height⟩, []) := by
  constructor
  · simp [printLoop, hch]
  · simp only [print, hf]
    simp [printLoop, hch, add_sub_cancel_left]

theorem print_unmapped_gap_five_witness :
    sampleWindow.font = some sampleFont
    ∧ fontLookup sampleFont 'q' = none
    ∧ (printLoop sampleFont 20 ['q', 'a'] 10 = printLoop sampleFont 20 ['a'] (10 + 5)
       ∧ print sampleWindow ['q'] 10 20 = some (⟨10, 20, 5, sampleFont.height⟩, [])) :=
  ⟨rfl, rfl,
    print_unmapped_gap_five sampleWindow sampleFont 'q' ['a'] 10 20 10 rfl rfl⟩

/-- C5: an alphabet with a duplicate character is rejected up front with the
duplicate-character error, for every pixel buffer — in particular before any
pixel (even `pixels[0]`, which does not exist for an empty buffer) is
examined. -/
theorem parse_image_font_duplicate_alphabet_rejected (pixels : List Nat) (ht : Nat)
    (A : List Char) (hA : ¬ A.Nodup) :
    parse_image_font pixels A ht
      = ParseResult.err "image font string has duplicate characters" := by
  have hdup : string_has_duplicate_chars A = true :=
    (string_has_duplicate_chars_iff A).mpr hA
  simp [parse_image_font, hdup]

theorem parse_image_font_duplicate_alphabet_rejected_witness :
    ¬ (['a', 'a'] : List Char).Nodup
    ∧ parse_image_font [1, 2, 3] ['a', 'a'] 3
        = ParseResult.err "image font string has duplicate characters" :=
  ⟨by decide, parse_image_font_duplicate_alphabet_rejected [1, 2, 3] 3 ['a', 'a'] (by decide)⟩

/-- C3: alphabet-order binding.  For a buffer whose first pixel sets the
border color and which consists of `N` well-formed border-delimited bands
followed by a border run and an optional trailing unterminated run, and a
duplicate-free alphabet of at least `N` characters, extraction succeeds with
exactly `N` entries whose keys, in insertion order, are the first `N` alphabet
characters: the `n`-th closed rectangle is bound to the `n`-th character. -/
theorem parse_image_font_alphabet_order_binding (b ht : Nat) (A : List Char)
    (L : List (List Nat × List Nat)) (g r : List Nat)
    (hA : A.Nodup) (hL : ∀ gb ∈ L, goodBlock b gb) (hlen : L.length ≤ A.length)
    (hg : ∀ x ∈ g, x = b) (hr : ∀ x ∈ r, x ≠ b) :
    (parseChars (parse_image_font (b :: (bandsJoin b L ++ (g ++ r))) A ht)).map
        (List.map Prod.fst) = some (A.take L.length)
    ∧ (parseChars (parse_image_font (b :: (bandsJoin b L ++ (g ++ r))) A ht)).map
        List.length = some L.length := by
  have hdup := string_has_duplicate_chars_eq_false hA
  have hscan : (scanLoop b A ht (b :: (bandsJoin b L ++ (g ++ r))) 0 [] none).map Prod.fst
      = A.take L.length := by
    rw [scanLoop_border_none rfl]
    have hmain := @scanLoop_bands_keys b ht A g r hg hr L 1 [] hL (by simpa using hlen)
    simpa using hmain
  constructor
  · simp [parse_image_font, hdup, parseChars, hscan]
  · have hlength : (scanLoop b A ht (b :: (bandsJoin b L ++ (g ++ r))) 0 [] none).length
        = L.length := by
      have hcl := congrArg List.length hscan
      simp only [List.length_map, List.length_take] at hcl
      rw [hcl]
      omega
    simp [parse_image_font, hdup, parseChars, hlength]

theorem parse_image_font_alphabet_order_binding_witness :
    (['a', 'b'] : List Char).Nodup
    ∧ (∀ gb ∈ [(([] : List Nat), [1, 1])], goodBlock 0 gb)
    ∧ ([(([] : List Nat), [1, 1])].length ≤ (['a', 'b'] : List Char).length)
    ∧ ((parseChars (parse_image_font (0 :: (bandsJoin 0 [([], [1, 1])] ++ ([] ++ []))) ['a', 'b'] 1)).map
          (List.map Prod.fst) = some (['a', 'b'].take [(([] : List Nat), [1, 1])].length)
       ∧ (parseChars (parse_image_font (0 :: (bandsJoin 0 [([], [1, 1])] ++ ([] ++ []))) ['a', 'b'] 1)).map
          List.length = some [(([] : List Nat), [1, 1])].length) :=
  ⟨by decide, by decide, by decide,
    parse_image_font_alphabet_order_binding 0 1 ['a', 'b'] [([], [1, 1])] [] []
      (by decide) (by decide) (by decide) (by simp) (by simp)⟩

/-- C4: truncation on alphabet exhaustion.  With more well-formed bands than
(duplicate-free) alphabet characters, extraction still succeeds, binds every
alphabet character (exactly `len(alphabet)` entries), and stops scanning at
the closing border of the first surplus band: everything after that pixel
(`rest`, a sentinel of arbitrary content) produces no entry.  In particular an
empty alphabet yields an empty mapping for every nonempty buffer. -/
theorem parse_image_font_truncation_on_exhaustion (b ht : Nat) (A : List Char)
    (L : List (List Nat × List Nat)) (g run rest ps : List Nat)
    (hA : A.Nodup) (hL : ∀ gb ∈ L, goodBlock b gb) (hlen : L.length = A.length)
    (hg : ∀ x ∈ g, x = b) (hrun : run ≠ []) (hrunb : ∀ x ∈ run, x ≠ b)
    (hps : ps ≠ []) :
    (parseChars (parse_image_font (b :: (bandsJoin b L ++ (g ++ (run ++ b :: rest)))) A ht)).map
        (List.map Prod.fst) = some A
    ∧ parseChars (parse_image_font ps [] ht) = some [] := by
  have hdup := string_has_duplicate_chars_eq_false hA
  constructor
  · have hscan : (scanLoop b A ht (b :: (bandsJoin b L ++ (g ++ (run ++ b :: rest)))) 0 [] none).map
        Prod.fst = A := by
      rw [scanLoop_border_none rfl]
      have hmain := @scanLoop_bands_exhaust b ht A g run rest hg hrun hrunb L 1 [] hL (by simpa using hlen)
      simpa using hmain
    simp [parse_image_font, hdup, parseChars, hscan]
  · match ps, hps with
    | q :: qs, _ =>
      have hnil : scanLoop q [] ht (q :: qs) 0 [] none = [] :=
        scanLoop_alphabet_nil (q :: qs) 0 none
      simp [parse_image_font, string_has_duplicate_chars, parseChars, hnil]

theorem parse_image_font_truncation_on_exhaustion_witness :
    (['a'] : List Char).Nodup
    ∧ (∀ gb ∈ [(([] : List Nat), [1])], goodBlock 0 gb)
    ∧ ([(([] : List Nat), [1])].length = (['a'] : List Char).length)
    ∧ (([2] : List Nat) ≠ [])
    ∧ (([5] : List Nat) ≠ [])
    ∧ ((parseChars (parse_image_font (0 :: (bandsJoin 0 [([], [1])] ++ ([] ++ ([2] ++ 0 :: [9, 9])))) ['a'] 1)).map
          (List.map Prod.fst) = some ['a']
       ∧ parseChars (parse_image_font [5] [] 1) = some []) :=
  ⟨by decide, by decide, by decide, by decide, by decide,
    parse_image_font_truncation_on_exhaustion 0 1 ['a'] [([], [1])] [] [2] [9, 9] [5]
      (by decide) (by decide) (by decide) (by simp) (by decide) (by decide) (by decide)⟩

/-- C2 counterexample: on the degenerate image (zero width or height, an empty
pixel buffer) with the duplicate-free alphabet "a", `parse_image_font` does
not return successfully with an empty mapping: the border-color read
`pixels[0]` is an out-of-bounds access into the empty buffer. -/
theorem parse_image_font_empty_buffer_cex :
    parse_image_font [] ['a'] 7 = ParseResult.panicked "index out of bounds"
    ∧ parse_image_font [] ['a'] 7 ≠ ParseResult.ok ⟨[], 7⟩ := by
  refine ⟨rfl, ?_⟩
  intro hcontra
  exact ParseResult.noConfusion hcontra

/-- C2 (amended): for every duplicate-free alphabet, extraction from a
degenerate image (empty pixel buffer) does not return an empty mapping — it
aborts with an out-of-bounds access while reading the border color from
`pixels[0]`.  (With a duplicate alphabet the up-front duplicate check fails
first instead.) -/
theorem parse_image_font_empty_buffer_panics (A : List Char) (ht : Nat) (hA : A.Nodup) :
    parse_image_font [] A ht = ParseResult.panicked "index out of bounds" := by
  have hdup := string_has_duplicate_chars_eq_false hA
  simp [parse_image_font, hdup]

theorem parse_image_font_empty_buffer_panics_witness :
    (['a'] : List Char).Nodup
    ∧ parse_image_font [] ['a'] 3 = ParseResult.panicked "index out of bounds" :=
  ⟨by decide, parse_image_font_empty_buffer_panics ['a'] 3 (by decide)⟩
